import Mathlib

/-!
Verification development for the marginalia repository (markdown annotation
tool).  The definitions below are shallow embeddings of the TypeScript
sources under `src/`:

* `src/lib/types.ts`          — the `Annotation` data model
* `src/hooks/useAnnotations.ts` — store operations and `shiftAnnotations`
* `src/lib/export.ts`          — `generateExport`
* `src/lib/selection.ts`       — `selectionToMarkdownRange`, `findSourcePosition`
* `src/components/DocumentView.tsx` — `applyHighlights`

JavaScript strings are modelled as `List Char` (an offset is a character
index); JavaScript numbers that hold offsets are modelled as `Int`; the
opaque uuid strings are modelled as `Nat` identifiers.
-/

/-- Models `AnnotationKind` from `src/lib/types.ts`: `'range' | 'point'`. -/
inductive AnnotKind where
  | range
  | point
deriving DecidableEq, Repr

/-- Models the `Annotation` interface from `src/lib/types.ts`.  `id` is the
uuid (opaque, modelled as `Nat`), `createdAt` the `Date.now()` timestamp. -/
structure Annotation where
  id : Nat
  kind : AnnotKind
  selectedText : List Char
  note : List Char
  markdownStartOffset : Int
  markdownEndOffset : Int
  createdAt : Nat
deriving DecidableEq, Repr

/-- Faithful embedding of `shiftAnnotations` from `src/hooks/useAnnotations.ts`
(lines 44-77).  The hook updates state with
`prev.filter(not fully inside).map(before ? a : after ? shifted : null).filter(non-null)`;
the trailing `map` to `null` plus `filter` is modelled by mapping into
`Option` and then `filterMap id`. -/
def shiftAnnotations (editStart editEnd newLength : Int) (prev : List Annotation ) : List Annotation :=
  let delta := newLength - (editEnd - editStart)
  ((prev.filter (fun a =>
      decide (¬(a.markdownStartOffset ≥ editStart ∧ a.markdownEndOffset ≤ editEnd)))).map
    (fun a =>
      if a.markdownEndOffset ≤ editStart then some a
      else if a.markdownStartOffset ≥ editEnd then
        some { a with markdownStartOffset := a.markdownStartOffset + delta,
                      markdownEndOffset := a.markdownEndOffset + delta }
      else (none : Option Annotation ))).filterMap id

/-- One-pass classification of a single annotation by an edit, applying the
source's cases in their priority order: fully-inside dropped first, then
fully-before unchanged, then fully-after shifted, otherwise (partial
overlap) dropped. -/
def classifyEdit (editStart editEnd newLength : Int) (a : Annotation ) : Option Annotation :=
  let delta := newLength - (editEnd - editStart)
  if a.markdownStartOffset ≥ editStart ∧ a.markdownEndOffset ≤ editEnd then none
  else if a.markdownEndOffset ≤ editStart then some a
  else if a.markdownStartOffset ≥ editEnd then
    some { a with markdownStartOffset := a.markdownStartOffset + delta,
                  markdownEndOffset := a.markdownEndOffset + delta }
  else none

/-- The three filter/map/filter passes of `shiftAnnotations` collapse into a
single first-match classification of each annotation. -/
theorem shiftAnnotations_eq_filterMap (editStart editEnd newLength : Int)
    (prev : List Annotation ) :
    shiftAnnotations editStart editEnd newLength prev =
      prev.filterMap ( classifyEdit editStart editEnd newLength) := by
  unfold shiftAnnotations
  rw [List.filterMap_map, List.filterMap_filter]
  congr 1
  funext a
  by_cases hc : a.markdownStartOffset ≥ editStart ∧ a.markdownEndOffset ≤ editEnd
  · rw [decide_eq_false (fun hn => hn hc)]
    simp only [classifyEdit]
    rw [if_neg (by simp), if_pos hc]
  · rw [decide_eq_true hc]
    simp only [classifyEdit, if_true]
    rw [if_neg hc]
    rfl

/-- Spec case 1: annotation fully contained in the edited range. -/
def caseContained (editStart editEnd : Int) (a : Annotation ) : Prop :=
  a.markdownStartOffset ≥ editStart ∧ a.markdownEndOffset ≤ editEnd

/-- Spec case 2: annotation fully before the edit. -/
def caseBefore (editStart : Int) (a : Annotation ) : Prop :=
  a.markdownEndOffset ≤ editStart

/-- Spec case 3: annotation fully after the edit. -/
def caseAfter (editEnd : Int) (a : Annotation ) : Prop :=
  a.markdownStartOffset ≥ editEnd

/-- Spec case 4: partial overlap, described in the spec as "every other"
annotation. -/
def caseOverlap (editStart editEnd : Int) (a : Annotation ) : Prop :=
  ¬ caseContained editStart editEnd a ∧ ¬ caseBefore editStart a ∧ ¬ caseAfter editEnd a

/-- A zero-width annotation sitting at offset 5, used as the concrete
counterexample input for the case-analysis claims. -/
def zeroWidthAt5 : Annotation :=
  { id := 0, kind := AnnotKind.range, selectedText := [], note := [],
    markdownStartOffset := 5, markdownEndOffset := 5, createdAt := 0 }

/-- C1 counterexample: the claim states that every annotation with
`end <= editStart` appears unchanged in the output.  For the edit
`(editStart 5, editEnd 8, newLength 1)` the zero-width annotation `[5,5]`
satisfies `end <= editStart`, yet `shiftAnnotations` drops it, because the
fully-contained case (`start >= editStart && end <= editEnd`) is tested
first and wins. -/
theorem shift_before_unchanged_fails :
    zeroWidthAt5.markdownEndOffset ≤ 5 ∧
      shiftAnnotations 5 8 1 [zeroWidthAt5] = [] := by
  constructor
  · decide
  · rfl

/-- C1 (amended): the four cases are applied in the source's priority order —
fully-contained annotations are dropped first; of the remaining ones those
fully before the edit are unchanged, those fully after are shifted by
`delta`, and all others (partial overlap) are dropped.  Equivalently,
`shiftAnnotations` is `filterMap` of the first-match classifier
`classifyEdit`.  The claim's concrete examples all hold: `[10,20]` with edit
`(5,8,1)` becomes `[8,18]`; with `(12,18,0)` and `(15,25,0)` it is dropped;
with `(25,30,3)` it is unchanged. -/
theorem shift_first_match_classification :
    (∀ (editStart editEnd newLength : Int) (prev : List Annotation ),
        shiftAnnotations editStart editEnd newLength prev =
          prev.filterMap ( classifyEdit editStart editEnd newLength)) ∧
    (∀ (a : Annotation ), a.markdownStartOffset = 10 → a.markdownEndOffset = 20 →
        classifyEdit 5 8 1 a =
          some { a with markdownStartOffset := 8, markdownEndOffset := 18 } ∧
        classifyEdit 12 18 0 a = none ∧
        classifyEdit 15 25 0 a = none ∧
        classifyEdit 25 30 3 a = some a) := by
  refine ⟨shiftAnnotations_eq_filterMap, ?_⟩
  intro a hs he
  refine ⟨?_, ?_, ?_, ?_⟩
  · simp only [classifyEdit]
    rw [if_neg (by omega), if_neg (by omega), if_pos (by omega)]
    rw [hs, he]
    norm_num
  · simp only [classifyEdit]
    rw [if_neg (by omega), if_neg (by omega), if_neg (by omega)]
  · simp only [classifyEdit]
    rw [if_neg (by omega), if_neg (by omega), if_neg (by omega)]
  · simp only [classifyEdit]
    rw [if_neg (by omega), if_pos (by omega)]

/-- C1 witness: the amended classification evaluated on the concrete
annotation `[10,20]` of the claim. -/
theorem shift_first_match_classification_witness :
    classifyEdit 5 8 1 { zeroWidthAt5 with markdownStartOffset := 10, markdownEndOffset := 20 } =
      some { zeroWidthAt5 with markdownStartOffset := 8, markdownEndOffset := 18 } ∧
    shiftAnnotations 25 30 3 [{ zeroWidthAt5 with markdownStartOffset := 10, markdownEndOffset := 20 }] =
      [{ zeroWidthAt5 with markdownStartOffset := 10, markdownEndOffset := 20 }] := by
  have h := shift_first_match_classification
  refine ⟨(h.2 _ rfl rfl).1, ?_⟩
  rw [h.1]
  rfl

/-- C3 counterexample: the four case predicates are not mutually exclusive
over all inputs.  For the zero-width annotation `[5,5]` and the edit
`(editStart 5, editEnd 5)`, the fully-contained, fully-before and
fully-after predicates all hold simultaneously. -/
theorem shift_cases_not_mutually_exclusive :
    caseContained 5 5 zeroWidthAt5 ∧ caseBefore 5 zeroWidthAt5 ∧ caseAfter 5 zeroWidthAt5 := by
  unfold caseContained caseBefore caseAfter zeroWidthAt5
  refine ⟨⟨?_, ?_⟩, ?_, ?_⟩ <;> decide

/-- C3 (amended): the four cases are exhaustive for every input, and they are
mutually exclusive whenever the edit range is well formed
(`editStart ≤ editEnd`) and the annotation is not zero-width
(`start < end`); `classifyEdit` resolves the remaining zero-width overlaps
by the source's priority order (contained first, then before, then after). -/
theorem shift_cases_exhaustive_and_exclusive :
    (∀ (editStart editEnd : Int) (a : Annotation ),
        caseContained editStart editEnd a ∨ caseBefore editStart a ∨
          caseAfter editEnd a ∨ caseOverlap editStart editEnd a) ∧
    (∀ (editStart editEnd : Int) (a : Annotation ),
        editStart ≤ editEnd → a.markdownStartOffset < a.markdownEndOffset →
        ¬(caseContained editStart editEnd a ∧ caseBefore editStart a) ∧
        ¬(caseContained editStart editEnd a ∧ caseAfter editEnd a) ∧
        ¬(caseBefore editStart a ∧ caseAfter editEnd a)) ∧
    (∀ (editStart editEnd newLength : Int) (a : Annotation ),
        (caseContained editStart editEnd a →
          classifyEdit editStart editEnd newLength a = none) ∧
        (¬ caseContained editStart editEnd a → caseBefore editStart a →
          classifyEdit editStart editEnd newLength a = some a) ∧
        (¬ caseContained editStart editEnd a → ¬ caseBefore editStart a →
          caseAfter editEnd a →
          classifyEdit editStart editEnd newLength a =
            some { a with
              markdownStartOffset :=
                a.markdownStartOffset + (newLength - (editEnd - editStart)),
              markdownEndOffset :=
                a.markdownEndOffset + (newLength - (editEnd - editStart)) }) ∧
        (caseOverlap editStart editEnd a →
          classifyEdit editStart editEnd newLength a = none)) := by
  refine ⟨?_, ?_, ?_⟩
  · intro editStart editEnd a
    by_cases h1 : caseContained editStart editEnd a
    · exact Or.inl h1
    by_cases h2 : caseBefore editStart a
    · exact Or.inr (Or.inl h2)
    by_cases h3 : caseAfter editEnd a
    · exact Or.inr (Or.inr (Or.inl h3))
    · exact Or.inr (Or.inr (Or.inr ⟨h1, h2, h3⟩))
  · intro editStart editEnd a hed hzw
    unfold caseContained caseBefore caseAfter
    refine ⟨?_, ?_, ?_⟩ <;> · rintro ⟨h1, h2⟩; omega
  · intro editStart editEnd newLength a
    refine ⟨?_, ?_, ?_, ?_⟩
    · intro h1
      unfold caseContained at h1
      simp only [classifyEdit]
      rw [if_pos h1]
    · intro h1 h2
      unfold caseContained at h1
      unfold caseBefore at h2
      simp only [classifyEdit]
      rw [if_neg h1, if_pos h2]
    · intro h1 h2 h3
      unfold caseContained at h1
      unfold caseBefore at h2
      unfold caseAfter at h3
      simp only [classifyEdit]
      rw [if_neg h1, if_neg h2, if_pos h3]
    · rintro ⟨h1, h2, h3⟩
      unfold caseContained at h1
      unfold caseBefore at h2
      unfold caseAfter at h3
      simp only [classifyEdit]
      rw [if_neg h1, if_neg h2, if_neg h3]

/-- C3 witness: the amended statement applied to the well-formed annotation
`[10,20]` and the well-formed edit `(12,18)`. -/
theorem shift_cases_exhaustive_and_exclusive_witness :
    ¬(caseContained 12 18 { zeroWidthAt5 with markdownStartOffset := 10, markdownEndOffset := 20 } ∧
      caseBefore 12 { zeroWidthAt5 with markdownStartOffset := 10, markdownEndOffset := 20 }) := by
  exact (shift_cases_exhaustive_and_exclusive.2.1 12 18 _ (by decide) (by decide)).1

/-- C4: if every annotation offset is a valid index into the old text
(`0 ≤ start ≤ end ≤ oldLength`) and the edit is well formed
(`0 ≤ editStart ≤ editEnd ≤ oldLength`, `0 ≤ newLength`), then every
annotation surviving `shiftAnnotations` has offsets that are valid indices
into the edited text of length `oldLength + newLength - (editEnd - editStart)`,
and `start ≤ end` is preserved. -/
theorem shift_preserves_offset_validity
    (oldLength editStart editEnd newLength : Int) (prev : List Annotation )
    (hround : ∀ a ∈ prev, 0 ≤ a.markdownStartOffset ∧
      a.markdownStartOffset ≤ a.markdownEndOffset ∧ a.markdownEndOffset ≤ oldLength)
    (hs0 : 0 ≤ editStart) (hse : editStart ≤ editEnd) (heL : editEnd ≤ oldLength)
    (hn : 0 ≤ newLength) :
    ∀ b ∈ shiftAnnotations editStart editEnd newLength prev,
      0 ≤ b.markdownStartOffset ∧
      b.markdownStartOffset ≤ b.markdownEndOffset ∧
      b.markdownEndOffset ≤ oldLength + newLength - (editEnd - editStart) := by
  intro b hb
  rw [shiftAnnotations_eq_filterMap] at hb
  rcases List.mem_filterMap.mp hb with ⟨a, ha, hcl⟩
  rcases hround a ha with ⟨h1, h2, h3⟩
  unfold classifyEdit at hcl
  by_cases hc : a.markdownStartOffset ≥ editStart ∧ a.markdownEndOffset ≤ editEnd
  · rw [if_pos hc] at hcl
    exact absurd hcl (by simp)
  · rw [if_neg hc] at hcl
    by_cases hbefore : a.markdownEndOffset ≤ editStart
    · rw [if_pos hbefore] at hcl
      rcases Option.some.inj hcl with rfl
      refine ⟨h1, h2, by omega⟩
    · rw [if_neg hbefore] at hcl
      by_cases hafter : a.markdownStartOffset ≥ editEnd
      · rw [if_pos hafter] at hcl
        rcases Option.some.inj hcl with rfl
        refine ⟨by simp; omega, by simp; omega, by simp; omega⟩
      · rw [if_neg hafter] at hcl
        exact absurd hcl (by simp)

/-- The single survivor of shifting `[10,20]` by the edit `(5,8,1)`. -/
def shiftedWitnessAnn : Annotation :=
  { zeroWidthAt5 with markdownStartOffset := 8, markdownEndOffset := 18 }

/-- C4 witness: the annotation `[10,20]` in a text of length 30, with the
edit `(5,8,1)`, is shifted to `[8,18]`, which stays within the new length 28. -/
theorem shift_preserves_offset_validity_witness :
    0 ≤ shiftedWitnessAnn.markdownStartOffset ∧
    shiftedWitnessAnn.markdownStartOffset ≤ shiftedWitnessAnn.markdownEndOffset ∧
    shiftedWitnessAnn.markdownEndOffset ≤ 30 + 1 - (8 - 5) := by
  exact shift_preserves_offset_validity 30 5 8 1
    [{ zeroWidthAt5 with markdownStartOffset := 10, markdownEndOffset := 20 }]
    (by intro a ha; simp at ha; rw [ha]; refine ⟨by decide, by decide, by decide⟩)
    (by decide) (by decide) (by decide) (by decide)
    shiftedWitnessAnn (by decide)

/-- C10: for a pure insertion (`editStart = editEnd = k`), `shiftAnnotations`
drops every zero-width annotation sitting exactly at the insertion point
even though the edit deletes nothing, leaves zero-width annotations strictly
before `k` unchanged, and shifts those strictly after `k` by `newLength`. -/
theorem pure_insertion_zero_width
    (k newLength : Int) (prev : List Annotation ) :
    shiftAnnotations k k newLength prev =
      prev.filterMap ( classifyEdit k k newLength) ∧
    (∀ (a : Annotation ), a.markdownStartOffset = k → a.markdownEndOffset = k →
      classifyEdit k k newLength a = none) ∧
    (∀ (a : Annotation ), a.markdownStartOffset = a.markdownEndOffset →
      a.markdownEndOffset < k → classifyEdit k k newLength a = some a) ∧
    (∀ (a : Annotation ), a.markdownStartOffset = a.markdownEndOffset →
      k < a.markdownStartOffset →
      classifyEdit k k newLength a =
        some { a with markdownStartOffset := a.markdownStartOffset + newLength,
                      markdownEndOffset := a.markdownEndOffset + newLength }) := by
  refine ⟨shiftAnnotations_eq_filterMap k k newLength prev, ?_, ?_, ?_⟩
  · intro a hs he
    simp only [classifyEdit]
    rw [if_pos (by omega)]
  · intro a hze hlt
    simp only [classifyEdit]
    rw [if_neg (by omega), if_pos (by omega)]
  · intro a hze hgt
    simp only [classifyEdit]
    rw [if_neg (by omega), if_neg (by omega), if_pos (by omega)]
    norm_num

/-- C10 witness: inserting 4 characters at offset 5 drops the zero-width
annotation at 5, while the zero-width annotation at 9 is shifted to 13. -/
theorem pure_insertion_zero_width_witness :
    classifyEdit 5 5 4 zeroWidthAt5 = none ∧
    classifyEdit 5 5 4 { zeroWidthAt5 with markdownStartOffset := 9, markdownEndOffset := 9 } =
      some { zeroWidthAt5 with markdownStartOffset := 13, markdownEndOffset := 13 } := by
  have h := pure_insertion_zero_width 5 4 []
  refine ⟨h.2.1 zeroWidthAt5 rfl rfl, ?_⟩
  have h2 := h.2.2.2 { zeroWidthAt5 with markdownStartOffset := 9, markdownEndOffset := 9 }
    rfl (by decide)
  rw [h2]
  rfl

/-- Clamp of a JavaScript `String.prototype.slice` index against a string of
length `n`: negative indices count from the end (clamped at 0), positive
ones are clamped at `n`. -/
def clampIdx (n : Nat) (k : Int) : Nat :=
  if k < 0 then ((n : Int) + k).toNat else min k.toNat n

/-- JavaScript `s.slice(a, b)` on a string modelled as `List Char`. -/
def jsSlice (l : List Char) (a b : Int) : List Char :=
  (l.take (clampIdx l.length b)).drop (clampIdx l.length a)

/-- JavaScript `s.slice(a)` (slice to the end of the string). -/
def jsSliceFrom (l : List Char) (a : Int) : List Char :=
  l.drop (clampIdx l.length a)

/-- Stable insertion into a list sorted descending by `markdownStartOffset`;
together with `sortDescByStart` this models the stable JavaScript
`[...annotations].sort((a, b) => b.markdownStartOffset - a.markdownStartOffset)`. -/
def insertDesc (a : Annotation ) : List Annotation → List Annotation
  | [] => [a]
  | b :: l =>
    if b.markdownStartOffset ≤ a.markdownStartOffset then a :: b :: l
    else b :: insertDesc a l

/-- Stable sort descending by start offset (ties keep original order), as
performed by `generateExport` and `applyHighlights`. -/
def sortDescByStart : List Annotation → List Annotation
  | [] => []
  | a :: l => insertDesc a (sortDescByStart l)

/-- Faithful embedding of `generateExport` from `src/lib/export.ts`.  The
string is modelled as `List Char` and the two `result.slice` calls use the
JavaScript clamping semantics. -/
def generateExport (markdown : List Char) (anns : List Annotation ) : List Char :=
  if anns.length = 0 then markdown
  else
    (sortDescByStart anns).foldl
      (fun result ann =>
        let note := '{' :: ann.note ++ ['}']
        if ann.kind = AnnotKind.point then
          jsSlice result 0 ann.markdownStartOffset ++ note ++
            jsSliceFrom result ann.markdownStartOffset
        else
          jsSlice result 0 ann.markdownEndOffset ++ (' ' :: note) ++
            jsSliceFrom result ann.markdownEndOffset)
      markdown

/-- The export format as worded by the spec: processing annotations in
descending `start` order, insert the literal sequence `' {' + note + '}'`
immediately after index `end` for a range annotation, and `'{' + note + '}'`
immediately before index `start` for a point annotation. -/
def specExportFormat (markdown : List Char) (anns : List Annotation ) : List Char :=
  if anns = [] then markdown
  else
    (sortDescByStart anns).foldl
      (fun result ann =>
        if ann.kind = AnnotKind.point then
          result.take ann.markdownStartOffset.toNat ++
            ('{' :: ann.note ++ ['}']) ++ result.drop ann.markdownStartOffset.toNat
        else
          result.take ann.markdownEndOffset.toNat ++
            (' ' :: '{' :: ann.note ++ ['}']) ++ result.drop ann.markdownEndOffset.toNat)
      markdown

theorem take_min_length (l : List Char) (a : Nat) : l.take (min a l.length) = l.take a := by
  rcases Nat.le_total a l.length with h | h
  · rw [Nat.min_eq_left h]
  · rw [Nat.min_eq_right h, List.take_length, List.take_of_length_le h]

theorem drop_min_length (l : List Char) (a : Nat) : l.drop (min a l.length) = l.drop a := by
  rcases Nat.le_total a l.length with h | h
  · rw [Nat.min_eq_left h]
  · rw [Nat.min_eq_right h, List.drop_length, List.drop_eq_nil_of_le h]

theorem jsSlice_zero (l : List Char) (k : Int) (hk : 0 ≤ k) :
    jsSlice l 0 k = l.take k.toNat := by
  unfold jsSlice clampIdx
  rw [if_neg (by omega), if_neg (by omega)]
  simp only [Int.toNat_zero, Nat.zero_min, List.drop_zero]
  exact take_min_length l k.toNat

theorem jsSliceFrom_nonneg (l : List Char) (k : Int) (hk : 0 ≤ k) :
    jsSliceFrom l k = l.drop k.toNat := by
  unfold jsSliceFrom clampIdx
  rw [if_neg (by omega), drop_min_length]

theorem mem_insertDesc {x a : Annotation } {l : List Annotation } :
    x ∈ insertDesc a l ↔ x = a ∨ x ∈ l := by
  induction l with
  | nil => simp [insertDesc]
  | cons b l ih =>
    unfold insertDesc
    by_cases h : b.markdownStartOffset ≤ a.markdownStartOffset
    · rw [if_pos h]
      simp
    · rw [if_neg h]
      simp only [List.mem_cons, ih]
      tauto

theorem mem_sortDescByStart {x : Annotation } {l : List Annotation } :
    x ∈ sortDescByStart l ↔ x ∈ l := by
  induction l with
  | nil => simp [sortDescByStart]
  | cons a l ih =>
    unfold sortDescByStart
    rw [mem_insertDesc]
    simp [ih]

theorem foldl_congr_mem {α β : Type} {l : List α} {f g : β → α → β}
    (h : ∀ a ∈ l, ∀ b, f b a = g b a) : ∀ b, l.foldl f b = l.foldl g b := by
  induction l with
  | nil => intro b; rfl
  | cons a l ih =>
    intro b
    simp only [List.foldl_cons]
    rw [h a (by simp)]
    exact ih (fun x hx b' => h x (by simp [hx]) b') _

/-- The range annotation of the spec's export scenario: offsets 13-27 over
"REST endpoints" with note "Consider GraphQL". -/
def graphqlExampleAnn : Annotation :=
  { id := 1, kind := AnnotKind.range, selectedText := "REST endpoints".toList,
    note := "Consider GraphQL".toList, markdownStartOffset := 13,
    markdownEndOffset := 27, createdAt := 0 }

/-- C2: `generateExport` returns the source unchanged on an empty annotation
set; for annotation sets with non-negative offsets it implements exactly the
spec's insertion scheme (descending by start, `' {note}'` after `end` for
ranges, `'{note}'` before `start` for points); and the spec's concrete
scenario produces exactly the expected output. -/
theorem generateExport_matches_spec :
    (∀ (markdown : List Char), generateExport markdown [] = markdown) ∧
    (∀ (markdown : List Char) (anns : List Annotation ),
        (∀ a ∈ anns, 0 ≤ a.markdownStartOffset ∧ 0 ≤ a.markdownEndOffset) →
        generateExport markdown anns = specExportFormat markdown anns) ∧
    generateExport "The API uses REST endpoints for all operations.".toList
        [graphqlExampleAnn] =
      "The API uses REST endpoints \x7bConsider GraphQL\x7d for all operations.".toList := by
  refine ⟨fun md => rfl, ?_, ?_⟩
  · intro md anns h
    cases anns with
    | nil => rfl
    | cons a l =>
      unfold generateExport specExportFormat
      rw [if_neg (by simp), if_neg (by simp)]
      apply foldl_congr_mem
      intro x hx b
      have hx' := mem_sortDescByStart.mp hx
      rcases h x hx' with ⟨h1, h2⟩
      dsimp only
      by_cases hk : x.kind = AnnotKind.point
      · rw [if_pos hk, if_pos hk, jsSlice_zero _ _ h1, jsSliceFrom_nonneg _ _ h1]
      · rw [if_neg hk, if_neg hk, jsSlice_zero _ _ h2, jsSliceFrom_nonneg _ _ h2]
        simp
  · rfl

/-- The annotation over "C" in the spec's two-annotation export scenario. -/
def abAnnY : Annotation :=
  { id := 2, kind := AnnotKind.range, selectedText := ['C'], note := ['y'],
    markdownStartOffset := 3, markdownEndOffset := 4, createdAt := 1 }

/-- The annotation over "A" in the spec's two-annotation export scenario. -/
def abAnnX : Annotation :=
  { id := 3, kind := AnnotKind.range, selectedText := ['A'], note := ['x'],
    markdownStartOffset := 0, markdownEndOffset := 1, createdAt := 0 }

/-- C2 witness: the refinement applied at the spec's concrete two-annotation
export scenario, discharging the non-negativity hypothesis there. -/
theorem generateExport_matches_spec_witness :
    generateExport "AB CD".toList [abAnnY, abAnnX] =
      specExportFormat "AB CD".toList [abAnnY, abAnnX] ∧
    specExportFormat "AB CD".toList [abAnnY, abAnnX] = "A \x7bx\x7dB C \x7by\x7dD".toList := by
  refine ⟨?_, by rfl⟩
  exact generateExport_matches_spec.2.1 _ _ (by
    intro a ha
    simp only [List.mem_cons, List.mem_singleton] at ha
    rcases ha with rfl | rfl | h
    · exact ⟨by decide, by decide⟩
    · exact ⟨by decide, by decide⟩
    · cases h)

/-- State of the `useAnnotations` hook: the annotation array and the active
annotation id.  `nextId` models the freshness of `uuidv4()` and `clock`
models the monotone `Date.now()` (two successive calls never go backwards;
we let the model clock advance by one per creation). -/
structure AnnotationStore where
  annotations : List Annotation
  activeAnnotationId : Option Nat
  nextId : Nat
  clock : Nat
deriving DecidableEq, Repr

/-- The initial hook state: `useState<Annotation[]>([])` and
`useState<string | null>(null)`. -/
def initialStore : AnnotationStore :=
  { annotations := [], activeAnnotationId := none, nextId := 0, clock := 0 }

/-- Embedding of `addAnnotation` (lines 12-26 of `useAnnotations.ts`): append
a fresh annotation with `id = uuidv4()` and `createdAt = Date.now()`. -/
def addAnnotation (st : AnnotationStore) (selectedText note : List Char)
    (startOffset endOffset : Int) (kind : AnnotKind) : AnnotationStore :=
  { st with
    annotations := st.annotations ++
      [{ id := st.nextId, kind := kind, selectedText := selectedText, note := note,
         markdownStartOffset := startOffset, markdownEndOffset := endOffset,
         createdAt := st.clock }],
    nextId := st.nextId + 1,
    clock := st.clock + 1 }

/-- Embedding of `updateAnnotation` (lines 28-32): replace the note of the
annotation with the given id, if present. -/
def updateAnnotation (st : AnnotationStore) (id : Nat) (note : List Char) :
    AnnotationStore :=
  { st with
    annotations := st.annotations.map (fun a =>
      if a.id = id then { a with note := note } else a) }

/-- Embedding of `deleteAnnotation` (lines 34-37): filter the annotation out
and clear the active id when it matched. -/
def deleteAnnotation (st : AnnotationStore) (id : Nat) : AnnotationStore :=
  { st with
    annotations := st.annotations.filter (fun a => a.id ≠ id),
    activeAnnotationId :=
      if st.activeAnnotationId = some id then none else st.activeAnnotationId }

/-- Applying an edit to the store delegates to `shiftAnnotations`. -/
def applyEditToStore (st : AnnotationStore) (editStart editEnd newLength : Int) :
    AnnotationStore :=
  { st with annotations := shiftAnnotations editStart editEnd newLength st.annotations }

/-- Embedding of `setActiveAnnotationId` from the hook. -/
def setActiveId (st : AnnotationStore) (id : Option Nat) : AnnotationStore :=
  { st with activeAnnotationId := id }

/-- One operation against the store, as exposed by `useAnnotations`. -/
inductive StoreOp where
  | create (selectedText note : List Char) (startOffset endOffset : Int) (kind : AnnotKind)
  | update (id : Nat) (note : List Char)
  | delete (id : Nat)
  | shift (editStart editEnd newLength : Int)
  | setActive (id : Option Nat)
deriving Repr

/-- Apply a single store operation. -/
def applyOp (st : AnnotationStore) : StoreOp → AnnotationStore
  | StoreOp.create t n s e k => addAnnotation st t n s e k
  | StoreOp.update i n => updateAnnotation st i n
  | StoreOp.delete i => deleteAnnotation st i
  | StoreOp.shift s e n => applyEditToStore st s e n
  | StoreOp.setActive i => setActiveId st i

/-- Apply a sequence of store operations starting from a store state. -/
def applyOps (ops : List StoreOp) (st : AnnotationStore) : AnnotationStore :=
  ops.foldl applyOp st

/-- Stable insertion into a list sorted ascending by `markdownStartOffset`;
together with `sortByStart` this models the stable JavaScript
`[...annotations].sort((a, b) => a.markdownStartOffset - b.markdownStartOffset)`
of lines 80-82 of `useAnnotations.ts`. -/
def insertAsc (a : Annotation ) : List Annotation → List Annotation
  | [] => [a]
  | b :: l =>
    if a.markdownStartOffset ≤ b.markdownStartOffset then a :: b :: l
    else b :: insertAsc a l

/-- Stable sort ascending by start offset (ties keep original array order). -/
def sortByStart : List Annotation → List Annotation
  | [] => []
  | a :: l => insertAsc a (sortByStart l)

/-- The `sortedAnnotations` value exposed by the hook as `annotations`. -/
def sortedAnnotations (st : AnnotationStore) : List Annotation :=
  sortByStart st.annotations

/-- Display order required by the spec: ascending `start`, ties broken by
ascending `createdAt`. -/
def displayOrdered (a b : Annotation ) : Prop :=
  a.markdownStartOffset < b.markdownStartOffset ∨
    (a.markdownStartOffset = b.markdownStartOffset ∧ a.createdAt ≤ b.createdAt)

/-- The annotation array of the hook, in creation order: `createdAt` is
non-decreasing along the array. -/
def chronoOrdered (l : List Annotation ) : Prop :=
  List.Pairwise (fun a b => a.createdAt ≤ b.createdAt) l

/-- Store invariant maintained by every hook operation: the array is in
creation order and every stored timestamp is in the past of the clock. -/
def storeInv (st : AnnotationStore) : Prop :=
  chronoOrdered st.annotations ∧ ∀ a ∈ st.annotations, a.createdAt < st.clock

theorem mem_insertAsc {x a : Annotation } {l : List Annotation } :
    x ∈ insertAsc a l ↔ x = a ∨ x ∈ l := by
  induction l with
  | nil => simp [insertAsc]
  | cons b l ih =>
    unfold insertAsc
    by_cases h : a.markdownStartOffset ≤ b.markdownStartOffset
    · rw [if_pos h]
      simp
    · rw [if_neg h]
      simp only [List.mem_cons, ih]
      tauto

theorem mem_sortByStart {x : Annotation } {l : List Annotation } :
    x ∈ sortByStart l ↔ x ∈ l := by
  induction l with
  | nil => simp [sortByStart]
  | cons a l ih =>
    unfold sortByStart
    rw [mem_insertAsc]
    simp [ih]

theorem pairwise_insertAsc {a : Annotation } {l : List Annotation }
    (hl : List.Pairwise displayOrdered l)
    (ha : ∀ b ∈ l, a.createdAt ≤ b.createdAt) :
    List.Pairwise displayOrdered (insertAsc a l) := by
  induction l with
  | nil => simp [insertAsc]
  | cons b l ih =>
    rw [List.pairwise_cons] at hl
    obtain ⟨hb, hl'⟩ := hl
    unfold insertAsc
    by_cases h : a.markdownStartOffset ≤ b.markdownStartOffset
    · rw [if_pos h]
      refine List.Pairwise.cons ?_ (List.Pairwise.cons hb hl')
      intro c hc
      rcases List.mem_cons.mp hc with rfl | hc'
      · rcases lt_or_eq_of_le h with hlt | heq
        · exact Or.inl hlt
        · exact Or.inr ⟨heq, ha c (by simp)⟩
      · have hbs := hb c hc'
        have hle : a.markdownStartOffset ≤ c.markdownStartOffset := by
          unfold displayOrdered at hbs
          rcases hbs with h1 | ⟨h1, _⟩ <;> omega
        rcases lt_or_eq_of_le hle with hlt | heq
        · exact Or.inl hlt
        · exact Or.inr ⟨heq, ha c (by simp [hc'])⟩
    · rw [if_neg h]
      refine List.Pairwise.cons ?_ (ih hl' (fun x hx => ha x (by simp [hx])))
      intro c hc
      rcases mem_insertAsc.mp hc with rfl | hc'
      · exact Or.inl (by omega)
      · exact hb c hc'

theorem pairwise_sortByStart {l : List Annotation } (hl : chronoOrdered l) :
    List.Pairwise displayOrdered (sortByStart l) := by
  induction l with
  | nil => simp [sortByStart]
  | cons a l ih =>
    unfold chronoOrdered at hl
    rw [List.pairwise_cons] at hl
    obtain ⟨ha, hl'⟩ := hl
    unfold sortByStart
    exact pairwise_insertAsc (ih hl') (fun b hb => ha b (mem_sortByStart.mp hb))

theorem classifyEdit_createdAt {editStart editEnd newLength : Int}
    {a b : Annotation } (h : classifyEdit editStart editEnd newLength a = some b) :
    b.createdAt = a.createdAt := by
  unfold classifyEdit at h
  by_cases h1 : a.markdownStartOffset ≥ editStart ∧ a.markdownEndOffset ≤ editEnd
  · rw [if_pos h1] at h
    cases h
  · rw [if_neg h1] at h
    by_cases h2 : a.markdownEndOffset ≤ editStart
    · rw [if_pos h2] at h
      cases h
      rfl
    · rw [if_neg h2] at h
      by_cases h3 : a.markdownStartOffset ≥ editEnd
      · rw [if_pos h3] at h
        cases h
        rfl
      · rw [if_neg h3] at h
        cases h

theorem applyOp_inv {st : AnnotationStore} (h : storeInv st) (op : StoreOp) :
    storeInv (applyOp st op) := by
  obtain ⟨hchrono, hclock⟩ := h
  cases op with
  | create t n s e k =>
    constructor
    · unfold chronoOrdered at *
      simp only [applyOp, addAnnotation.eq_def]
      rw [List.pairwise_append]
      refine ⟨hchrono, by simp, ?_⟩
      intro a ha b hb
      simp only [List.mem_singleton] at hb
      subst hb
      exact le_of_lt (hclock a ha)
    · intro a ha
      simp only [applyOp, addAnnotation.eq_def, List.mem_append,
        List.mem_singleton] at ha
      rcases ha with ha | rfl
      · exact Nat.lt_succ_of_lt (hclock a ha)
      · exact Nat.lt_succ_self _
  | update i n =>
    constructor
    · unfold chronoOrdered at *
      simp only [applyOp, updateAnnotation.eq_def]
      refine List.Pairwise.map _ ?_ hchrono
      intro a b hab
      by_cases h1 : a.id = i <;> by_cases h2 : b.id = i <;>
        simp [h1, h2, hab]
    · intro a ha
      simp only [applyOp, updateAnnotation.eq_def, List.mem_map] at ha
      rcases ha with ⟨b, hb, rfl⟩
      by_cases h1 : b.id = i <;>
        simp [applyOp, updateAnnotation.eq_def, h1, hclock b hb]
  | delete i =>
    constructor
    · unfold chronoOrdered at *
      simp only [applyOp, deleteAnnotation.eq_def]
      exact hchrono.filter _
    · intro a ha
      simp only [applyOp, deleteAnnotation.eq_def, List.mem_filter] at ha
      exact hclock a ha.1
  | shift s e n =>
    constructor
    · unfold chronoOrdered at *
      simp only [applyOp, applyEditToStore.eq_def]
      rw [shiftAnnotations_eq_filterMap]
      rw [List.pairwise_filterMap]
      refine hchrono.imp ?_
      intro a b hab x hx y hy
      rw [Option.mem_def] at hx hy
      rw [classifyEdit_createdAt hx, classifyEdit_createdAt hy]
      exact hab
    · intro a ha
      simp only [applyOp, applyEditToStore.eq_def] at ha
      rw [shiftAnnotations_eq_filterMap] at ha
      rcases List.mem_filterMap.mp ha with ⟨b, hb, hcl⟩
      rw [classifyEdit_createdAt hcl]
      exact hclock b hb
  | setActive i =>
    exact ⟨hchrono, hclock⟩

theorem applyOps_inv (ops : List StoreOp) {st : AnnotationStore} (h : storeInv st) :
    storeInv (applyOps ops st) := by
  induction ops generalizing st with
  | nil => exact h
  | cons op ops ih => exact ih (applyOp_inv h op)

/-- C6: for every sequence of store operations starting from the initial
hook state, the list exposed by the hook (`sortedAnnotations`) is sorted
ascending by start offset with ties broken by ascending `createdAt`.  The
hook's comparator sorts by start only; the tiebreak follows from sort
stability plus the fact that the array is always in creation order. -/
theorem hook_list_display_ordered (ops : List StoreOp) :
    List.Pairwise displayOrdered ( sortedAnnotations (applyOps ops initialStore)) := by
  have hinv : storeInv (applyOps ops initialStore) :=
    applyOps_inv ops ⟨List.Pairwise.nil, by intro a ha; cases ha⟩
  exact pairwise_sortByStart hinv.1

/-- C8: deleting an id removes exactly the annotations carrying that id,
keeps all others, clears the active reference when it pointed at the deleted
id, and leaves it untouched otherwise. -/
theorem delete_clears_active (st : AnnotationStore) (id : Nat) :
    (∀ a ∈ ( deleteAnnotation st id).annotations, a.id ≠ id) ∧
    (∀ a ∈ st.annotations, a.id ≠ id → a ∈ ( deleteAnnotation st id).annotations) ∧
    (st.activeAnnotationId = some id → ( deleteAnnotation st id).activeAnnotationId = none) ∧
    (st.activeAnnotationId ≠ some id →
      ( deleteAnnotation st id).activeAnnotationId = st.activeAnnotationId) := by
  refine ⟨?_, ?_, ?_, ?_⟩
  · intro a ha
    simp only [ deleteAnnotation.eq_def, List.mem_filter] at ha
    simpa using ha.2
  · intro a ha hne
    simp only [ deleteAnnotation.eq_def, List.mem_filter]
    exact ⟨ha, by simpa using hne⟩
  · intro hact
    simp [ deleteAnnotation.eq_def, hact]
  · intro hact
    simp [ deleteAnnotation.eq_def, hact]

/-- C8 witness: in a store with two annotations and annotation 1 active,
deleting annotation 1 clears the active id and removes it from the list. -/
theorem delete_clears_active_witness :
    ( deleteAnnotation
        { annotations := [{ zeroWidthAt5 with id := 1 }, { zeroWidthAt5 with id := 2 }],
          activeAnnotationId := some 1, nextId := 3, clock := 2 } 1).activeAnnotationId =
      none ∧
    ∀ a ∈ ( deleteAnnotation
        { annotations := [{ zeroWidthAt5 with id := 1 }, { zeroWidthAt5 with id := 2 }],
          activeAnnotationId := some 1, nextId := 3, clock := 2 } 1).annotations,
      a.id ≠ 1 := by
  have h := delete_clears_active
    { annotations := [{ zeroWidthAt5 with id := 1 }, { zeroWidthAt5 with id := 2 }],
      activeAnnotationId := some 1, nextId := 3, clock := 2 } 1
  exact ⟨h.2.2.1 rfl, h.1⟩

/-- Model of a DOM node inside the rendered-markdown container.
`elem pos children` is an HTML element whose optional `pos = (start, end)`
models the `data-source-start`/`data-source-end` attributes produced by
`rehypeSourcePositions`; `mark` models a highlight `<mark data-annotation-id>`
element inserted by `applyHighlights` (it never carries source attributes);
`pointSpan` models the zero-width `<span data-point-annotation-id>` marker
(it has no children). -/
inductive DomNode where
  | text (s : List Char)
  | elem (pos : Option (Int × Int)) (children : List DomNode)
  | mark (annId : Nat) (active : Bool) (children : List DomNode)
  | pointSpan (annId : Nat) (active : Bool)
deriving Repr

/-- Child list of a node (text and point spans are leaves). -/
def DomNode.children : DomNode → List DomNode
  | DomNode.text _ => []
  | DomNode.elem _ cs => cs
  | DomNode.mark _ _ cs => cs
  | DomNode.pointSpan _ _ => []

mutual
/-- `Node.textContent`: concatenation of all text descendants in document
order. -/
def textContent : DomNode → List Char
  | DomNode.text s => s
  | DomNode.elem _ cs => textContentList cs
  | DomNode.mark _ _ cs => textContentList cs
  | DomNode.pointSpan _ _ => []

def textContentList : List DomNode → List Char
  | [] => []
  | c :: cs => textContent c ++ textContentList cs
end

/-- The node reached by following a path of child indices; DOM node
references are modelled as paths from the container root. -/
def nodeAt (t : DomNode) : List Nat → Option DomNode
  | [] => some t
  | i :: p =>
    match t.children[i]? with
    | some c => nodeAt c p
    | none => none

mutual
/-- The `TreeWalker` count of `getTextOffsetInElement` from
`src/lib/selection.ts` (lines 100-119): walk the text descendants of the
root in document order; on reaching the target node return
`Sum.inl (count + offset)`; if the walk ends without meeting the target
(the code's fallback `return count`) the total text length is returned as
`Sum.inr`. -/
def gtoe (t : DomNode) (p : List Nat) (off : Nat) : Sum Nat Nat :=
  match p, t with
  | [], DomNode.text _ => Sum.inl off
  | [], t => Sum.inr (textContent t).length
  | _ :: _, DomNode.text s => Sum.inr s.length
  | i :: p', DomNode.elem _ cs => gtoeL cs i p' off
  | i :: p', DomNode.mark _ _ cs => gtoeL cs i p' off
  | _ :: _, DomNode.pointSpan _ _ => Sum.inr 0

def gtoeL (cs : List DomNode) (i : Nat) (p : List Nat) (off : Nat) : Sum Nat Nat :=
  match cs, i with
  | [], _ => Sum.inr 0
  | c :: cs', 0 =>
    match gtoe c p off with
    | Sum.inl r => Sum.inl r
    | Sum.inr n => Sum.inr (n + (textContentList cs').length)
  | c :: cs', Nat.succ i' =>
    match gtoeL cs' i' p off with
    | Sum.inl r => Sum.inl ((textContent c).length + r)
    | Sum.inr n => Sum.inr ((textContent c).length + n)
end

/-- `getTextOffsetInElement(root, targetNode, targetOffset)`: the found
count plus offset, or the fallback total text length. -/
def getTextOffsetInElement (root : DomNode) (p : List Nat) (off : Nat) : Nat :=
  match gtoe root p off with
  | Sum.inl r => r
  | Sum.inr n => n

/-- The ancestor walk of `findSourcePosition` (lines 48-80 of
`selection.ts`): starting from the node at path `p` walk towards the root
and return the nearest (deepest) element carrying both source attributes,
together with the path of the start node relative to it and its attribute
values. -/
def findAttrNode (t : DomNode) (p : List Nat) : Option (DomNode × List Nat × Int × Int) :=
  match p with
  | [] =>
    match t with
    | DomNode.elem (some (s, e)) cs => some (DomNode.elem (some (s, e)) cs, [], s, e)
    | _ => none
  | i :: p' =>
    match t.children[i]? with
    | some c =>
      match findAttrNode c p' with
      | some r => some r
      | none =>
        match t with
        | DomNode.elem (some (s, e)) cs => some (DomNode.elem (some (s, e)) cs, i :: p', s, e)
        | _ => none
    | none =>
      match t with
      | DomNode.elem (some (s, e)) cs => some (DomNode.elem (some (s, e)) cs, i :: p', s, e)
      | _ => none

/-- `findSourcePosition`: resolve the nearest attributed ancestor, then
return `min(start + textOffsetWithinIt, end)`.  Both the `'start'` and
`'end'` branches of the source compute the same expression. -/
def findSourcePosition (root : DomNode) (p : List Nat) (off : Nat) : Option Int :=
  match findAttrNode root p with
  | some (el, rel, s, e) =>
    some (min (s + (getTextOffsetInElement el rel off : Int)) e)
  | none => none

/-- JavaScript `String.prototype.trim` on a character list. -/
def trimChars (l : List Char) : List Char :=
  (l.dropWhile Char.isWhitespace).reverse.dropWhile Char.isWhitespace |>.reverse

/-- A DOM `Range`: boundary points are (path to container node, offset). -/
structure DomRange where
  startPath : List Nat
  startOffset : Nat
  endPath : List Nat
  endOffset : Nat
deriving Repr

/-- A DOM `Selection`: `rangeCount` is the length of `ranges`,
`getRangeAt(0)` its head.  Ranges are stored with their boundary points in
document order, as the DOM guarantees for `getRangeAt`. -/
structure DomSelection where
  ranges : List DomRange
deriving Repr

/-- The result record of `selectionToMarkdownRange`. -/
structure MarkdownRange where
  startOffset : Int
  endOffset : Int
  selectedText : List Char
deriving DecidableEq, Repr

/-- Faithful embedding of `selectionToMarkdownRange` from
`src/lib/selection.ts` (lines 14-42).  `selection.toString()` is modelled
as the text content of the container between the two boundary points'
global text offsets; `range.collapsed` as equality of the boundary points;
`containerEl.contains` as validity of the node path. -/
def selectionToMarkdownRange (sel : DomSelection) (containerEl : DomNode) :
    Option MarkdownRange :=
  match sel.ranges with
  | [] => none
  | range :: _ =>
    if range.startPath = range.endPath ∧ range.startOffset = range.endOffset then none
    else if ¬((nodeAt containerEl range.startPath).isSome ∧
              (nodeAt containerEl range.endPath).isSome) then none
    else
      let g1 := getTextOffsetInElement containerEl range.startPath range.startOffset
      let g2 := getTextOffsetInElement containerEl range.endPath range.endOffset
      let selectedText := trimChars (((textContent containerEl).drop g1).take (g2 - g1))
      if selectedText = [] then none
      else
        match findSourcePosition containerEl range.startPath range.startOffset,
              findSourcePosition containerEl range.endPath range.endOffset with
        | some s, some e => some { startOffset := s, endOffset := e, selectedText := selectedText }
        | _, _ => none

/-- C9: `selectionToMarkdownRange` is a total function (the embedding is a
plain function, modelling that the source never throws), and it returns
`none` whenever either endpoint has no attributed ancestor
(`findSourcePosition` yields `none`) or the selected text is empty after
trimming. -/
theorem selection_null_on_unresolvable (sel : DomSelection) (containerEl : DomNode)
    (range : DomRange) (rest : List DomRange) (hr : sel.ranges = range :: rest)
    (h : findSourcePosition containerEl range.startPath range.startOffset = none ∨
         findSourcePosition containerEl range.endPath range.endOffset = none ∨
         trimChars (((textContent containerEl).drop
             (getTextOffsetInElement containerEl range.startPath range.startOffset)).take
           (getTextOffsetInElement containerEl range.endPath range.endOffset -
             getTextOffsetInElement containerEl range.startPath range.startOffset)) = []) :
    selectionToMarkdownRange sel containerEl = none := by
  unfold selectionToMarkdownRange
  rw [hr]
  dsimp only
  by_cases h1 : range.startPath = range.endPath ∧ range.startOffset = range.endOffset
  · rw [if_pos h1]
  · rw [if_neg h1]
    by_cases h2 : (nodeAt containerEl range.startPath).isSome ∧
        (nodeAt containerEl range.endPath).isSome
    · rw [if_neg (fun hn => hn h2)]
      by_cases h3 : trimChars (((textContent containerEl).drop
          (getTextOffsetInElement containerEl range.startPath range.startOffset)).take
        (getTextOffsetInElement containerEl range.endPath range.endOffset -
          getTextOffsetInElement containerEl range.startPath range.startOffset)) = []
      · rw [if_pos h3]
      · rw [if_neg h3]
        rcases h with h | h | h
        · rw [h]
        · rw [h]
          cases findSourcePosition containerEl range.startPath range.startOffset <;> rfl
        · exact absurd h h3
    · rw [if_pos h2]

/-- C9 witness: a selection whose endpoints lie in a tree with no source
attributes anywhere resolves to `none`. -/
theorem selection_null_on_unresolvable_witness :
    selectionToMarkdownRange
      { ranges := [{ startPath := [0], startOffset := 0, endPath := [0], endOffset := 2 }] }
      (DomNode.elem none [DomNode.text "abc".toList]) = none := by
  exact selection_null_on_unresolvable _ _ _ _ rfl (Or.inl rfl)

/-- The markdown source of the round-trip counterexample: bold syntax makes
rendered text shorter than the source span covering it. -/
def boldSourceText : List Char := "**hi** there".toList

/-- The render tree `rehypeSourcePositions` + react-markdown produce for
`**hi** there`: a paragraph spanning source `[0,12)` containing a `<strong>`
spanning `[0,6)` with rendered text "hi", followed by the text " there". -/
def boldRenderedTree : DomNode :=
  DomNode.elem none
    [DomNode.elem (some (0, 12))
      [DomNode.elem (some (0, 6)) [DomNode.text "hi".toList],
       DomNode.text " there".toList]]

/-- A user selection of the rendered word "there" (inside the text node
" there", offsets 1 to 6). -/
def thereSelection : DomSelection :=
  { ranges := [{ startPath := [0, 1], startOffset := 1, endPath := [0, 1], endOffset := 6 }] }

/-- C5 counterexample: selecting "there" in the rendered output of
`**hi** there` resolves to offsets `[3,8)` with stored anchor text "there",
but `sourceText.slice(3, 8)` is "i** t" — the round-trip equality fails
because offsets are computed from rendered-text counts while the source
contains markdown syntax. -/
theorem selection_roundtrip_fails :
    selectionToMarkdownRange thereSelection boldRenderedTree =
      some { startOffset := 3, endOffset := 8, selectedText := "there".toList } ∧
    jsSlice boldSourceText 3 8 = "i** t".toList ∧
    "i** t".toList ≠ "there".toList := by
  refine ⟨by rfl, by rfl, by decide⟩

/-- Total text length of the first `i` children. -/
def lensBefore (cs : List DomNode) (i : Nat) : Nat :=
  ((cs.take i).map (fun c => (textContent c).length)).sum

/-- Length of the text strictly before the subtree at path `p`, in the
document-order text of `t`. -/
def preLen (t : DomNode) : List Nat → Nat
  | [] => 0
  | i :: p =>
    lensBefore t.children i +
      (match t.children[i]? with
       | some c => preLen c p
       | none => 0)

theorem gtoeL_inl {cs : List DomNode} {i : Nat} {c : DomNode}
    (hc : cs[i]? = some c) {p : List Nat} {off r : Nat}
    (h : gtoe c p off = Sum.inl r) :
    gtoeL cs i p off = Sum.inl (lensBefore cs i + r) := by
  induction cs generalizing i with
  | nil => simp at hc
  | cons d cs' ih =>
    cases i with
    | zero =>
      simp only [List.getElem?_cons_zero, Option.some.injEq] at hc
      subst hc
      unfold gtoeL
      rw [h]
      unfold lensBefore
      simp
    | succ i' =>
      simp only [List.getElem?_cons_succ] at hc
      unfold gtoeL
      rw [ih hc]
      unfold lensBefore
      simp only [List.take_succ_cons, List.map_cons, List.sum_cons]
      congr 1
      omega

theorem gtoe_append {q : List Nat} {t el : DomNode} (hq : nodeAt t q = some el)
    {rel : List Nat} {off r : Nat} (h : gtoe el rel off = Sum.inl r) :
    gtoe t (q ++ rel) off = Sum.inl (preLen t q + r) := by
  induction q generalizing t with
  | nil =>
    unfold nodeAt at hq
    rcases Option.some.inj hq with rfl
    simpa [preLen] using h
  | cons i q' ih =>
    unfold nodeAt at hq
    cases hc : t.children[i]? with
    | none => rw [hc] at hq; cases hq
    | some c =>
      rw [hc] at hq
      dsimp only at hq
      have hrec := ih hq
      cases t with
      | text s => simp [DomNode.children] at hc
      | pointSpan a b => simp [DomNode.children] at hc
      | elem pos cs =>
        have hc' : cs[i]? = some c := hc
        have hpre : preLen (DomNode.elem pos cs) (i :: q') =
            lensBefore cs i + preLen c q' := by
          simp only [preLen, DomNode.children, hc']
        show gtoeL cs i (q' ++ rel) off =
          Sum.inl (preLen (DomNode.elem pos cs) (i :: q') + r)
        rw [hpre, gtoeL_inl hc' hrec]
        congr 1
        omega
      | mark a b cs =>
        have hc' : cs[i]? = some c := hc
        have hpre : preLen (DomNode.mark a b cs) (i :: q') =
            lensBefore cs i + preLen c q' := by
          simp only [preLen, DomNode.children, hc']
        show gtoeL cs i (q' ++ rel) off =
          Sum.inl (preLen (DomNode.mark a b cs) (i :: q') + r)
        rw [hpre, gtoeL_inl hc' hrec]
        congr 1
        omega

theorem textContentList_decomp {cs : List DomNode} {i : Nat} {c : DomNode}
    (hc : cs[i]? = some c) :
    ∃ pre post, textContentList cs = pre ++ textContent c ++ post ∧
      pre.length = lensBefore cs i := by
  induction cs generalizing i with
  | nil => simp at hc
  | cons d cs' ih =>
    cases i with
    | zero =>
      simp only [List.getElem?_cons_zero, Option.some.injEq] at hc
      subst hc
      exact ⟨[], textContentList cs', by simp [textContentList], by simp [lensBefore]⟩
    | succ i' =>
      simp only [List.getElem?_cons_succ] at hc
      rcases ih hc with ⟨pre, post, heq, hlen⟩
      refine ⟨textContent d ++ pre, post, ?_, ?_⟩
      · show textContent d ++ textContentList cs' = _
        rw [heq]
        simp
      · simp only [List.length_append, hlen]
        unfold lensBefore
        simp only [List.take_succ_cons, List.map_cons, List.sum_cons]

theorem textContent_decomp {q : List Nat} {t el : DomNode}
    (hq : nodeAt t q = some el) :
    ∃ pre post, textContent t = pre ++ textContent el ++ post ∧
      pre.length = preLen t q := by
  induction q generalizing t with
  | nil =>
    unfold nodeAt at hq
    rcases Option.some.inj hq with rfl
    exact ⟨[], [], by simp, by simp [preLen]⟩
  | cons i q' ih =>
    unfold nodeAt at hq
    cases hc : t.children[i]? with
    | none => rw [hc] at hq; cases hq
    | some c =>
      rw [hc] at hq
      dsimp only at hq
      rcases ih hq with ⟨pre, post, hpp, hpl⟩
      cases t with
      | text s => simp [DomNode.children] at hc
      | pointSpan a b => simp [DomNode.children] at hc
      | elem pos cs =>
        have hc' : cs[i]? = some c := hc
        rcases textContentList_decomp hc' with ⟨A, B, hAB, hA⟩
        have hpre : preLen (DomNode.elem pos cs) (i :: q') =
            lensBefore cs i + preLen c q' := by
          simp only [preLen, DomNode.children, hc']
        refine ⟨A ++ pre, post ++ B, ?_, ?_⟩
        · show textContentList cs = _
          rw [hAB, hpp]
          simp
        · rw [hpre]
          simp only [List.length_append, hA, hpl]
      | mark a b cs =>
        have hc' : cs[i]? = some c := hc
        rcases textContentList_decomp hc' with ⟨A, B, hAB, hA⟩
        have hpre : preLen (DomNode.mark a b cs) (i :: q') =
            lensBefore cs i + preLen c q' := by
          simp only [preLen, DomNode.children, hc']
        refine ⟨A ++ pre, post ++ B, ?_, ?_⟩
        · show textContentList cs = _
          rw [hAB, hpp]
          simp
        · rw [hpre]
          simp only [List.length_append, hA, hpl]

theorem slice_within_decomp (pre T post : List Char) (tb1 tb2 : Nat)
    (h12 : tb1 ≤ tb2) (h2 : tb2 ≤ T.length) :
    ((pre ++ T ++ post).drop (pre.length + tb1)).take
        (pre.length + tb2 - (pre.length + tb1)) = (T.drop tb1).take (tb2 - tb1) := by
  have hsub : pre.length + tb2 - (pre.length + tb1) = tb2 - tb1 := by omega
  rw [hsub, List.append_assoc, List.drop_append_eq_append_drop,
    List.drop_eq_nil_of_le (by omega), List.nil_append]
  have h3 : pre.length + tb1 - pre.length = tb1 := by omega
  rw [h3, List.drop_append_eq_append_drop, List.take_append_eq_append_take]
  have h4 : tb2 - tb1 - (T.drop tb1).length = 0 := by
    simp only [List.length_drop]
    omega
  rw [h4, List.take_zero, List.append_nil]

theorem jsSlice_sub_slice (source : List Char) (es ee : Int) (tb1 tb2 : Nat)
    (hes : 0 ≤ es) (h12 : tb1 ≤ tb2) (hcl : es + (tb2 : Int) ≤ ee)
    (heL : ee ≤ (source.length : Int)) :
    jsSlice source (es + (tb1 : Int)) (es + (tb2 : Int)) =
      ((jsSlice source es ee).drop tb1).take (tb2 - tb1) := by
  unfold jsSlice clampIdx
  rw [if_neg (by omega), if_neg (by omega), if_neg (by omega), if_neg (by omega)]
  have e1 : (es + (tb1 : Int)).toNat = es.toNat + tb1 := by omega
  have e2 : (es + (tb2 : Int)).toNat = es.toNat + tb2 := by omega
  have m1 : min (es + (tb1 : Int)).toNat source.length = es.toNat + tb1 := by omega
  have m2 : min (es + (tb2 : Int)).toNat source.length = es.toNat + tb2 := by omega
  have m3 : min es.toNat source.length = es.toNat := by omega
  have m4 : min ee.toNat source.length = ee.toNat := by omega
  rw [m1, m2, m3, m4, List.drop_drop, List.drop_take, List.drop_take,
    List.take_take]
  have harith : es.toNat + tb2 - (es.toNat + tb1) = tb2 - tb1 := by omega
  have harith2 : es.toNat + tb1 = es.toNat + tb1 := rfl
  rw [harith]
  have hmin : min (tb2 - tb1) (ee.toNat - (es.toNat + tb1)) = tb2 - tb1 := by omega
  rw [hmin]

/-- C5 (amended): the round-trip equality `sourceText.slice(s, e) = t` holds
whenever the resolution context is "plain": both selection endpoints resolve
to the same attributed element `el` (hypotheses `hfa1`, `hfa2`), the
rendered text of `el` equals the source slice of its attribute span
(`hmatch`, which fails when the span contains markdown syntax), the
endpoint text offsets `tb1 ≤ tb2` stay inside `el`'s text and do not hit
the `min` clamp, and the selected text carries no leading or trailing
whitespace (`htrim`), so trimming is the identity.  Under these conditions
`selectionToMarkdownRange` returns offsets `es + tb1, es + tb2` with the
selected text, and the source slice at those offsets is that same text. -/
theorem selection_roundtrip_of_plain
    (source : List Char) (containerEl el : DomNode) (sel : DomSelection)
    (range : DomRange) (rest : List DomRange)
    (q rel1 rel2 : List Nat) (off1 off2 tb1 tb2 : Nat) (es ee : Int)
    (hsel : sel.ranges = range :: rest)
    (hsp : range.startPath = q ++ rel1) (hep : range.endPath = q ++ rel2)
    (ho1 : range.startOffset = off1) (ho2 : range.endOffset = off2)
    (hq : nodeAt containerEl q = some el)
    (hfa1 : findAttrNode containerEl (q ++ rel1) = some (el, rel1, es, ee))
    (hfa2 : findAttrNode containerEl (q ++ rel2) = some (el, rel2, es, ee))
    (hg1 : gtoe el rel1 off1 = Sum.inl tb1)
    (hg2 : gtoe el rel2 off2 = Sum.inl tb2)
    (h12 : tb1 ≤ tb2) (htl : tb2 ≤ (textContent el).length)
    (hcl : es + (tb2 : Int) ≤ ee)
    (hes : 0 ≤ es) (heL : ee ≤ (source.length : Int))
    (hmatch : textContent el = jsSlice source es ee)
    (hnc : ¬(range.startPath = range.endPath ∧ range.startOffset = range.endOffset))
    (hvalid : (nodeAt containerEl range.startPath).isSome ∧
      (nodeAt containerEl range.endPath).isSome)
    (htrim : trimChars (((textContent el).drop tb1).take (tb2 - tb1)) =
      ((textContent el).drop tb1).take (tb2 - tb1))
    (hne : ((textContent el).drop tb1).take (tb2 - tb1) ≠ []) :
    selectionToMarkdownRange sel containerEl =
      some { startOffset := es + (tb1 : Int), endOffset := es + (tb2 : Int),
             selectedText := ((textContent el).drop tb1).take (tb2 - tb1) } ∧
    jsSlice source (es + (tb1 : Int)) (es + (tb2 : Int)) =
      ((textContent el).drop tb1).take (tb2 - tb1) := by
  have hge1 : getTextOffsetInElement containerEl (q ++ rel1) off1 =
      preLen containerEl q + tb1 := by
    unfold getTextOffsetInElement
    rw [gtoe_append hq hg1]
  have hge2 : getTextOffsetInElement containerEl (q ++ rel2) off2 =
      preLen containerEl q + tb2 := by
    unfold getTextOffsetInElement
    rw [gtoe_append hq hg2]
  have hgel1 : getTextOffsetInElement el rel1 off1 = tb1 := by
    unfold getTextOffsetInElement
    rw [hg1]
  have hgel2 : getTextOffsetInElement el rel2 off2 = tb2 := by
    unfold getTextOffsetInElement
    rw [hg2]
  have hf1 : findSourcePosition containerEl (q ++ rel1) off1 = some (es + (tb1 : Int)) := by
    unfold findSourcePosition
    rw [hfa1]
    dsimp only
    rw [hgel1]
    congr 1
    omega
  have hf2 : findSourcePosition containerEl (q ++ rel2) off2 = some (es + (tb2 : Int)) := by
    unfold findSourcePosition
    rw [hfa2]
    dsimp only
    rw [hgel2]
    congr 1
    omega
  rcases textContent_decomp hq with ⟨pre, post, hdc, hplen⟩
  have hsel_text : ((textContent containerEl).drop
      (preLen containerEl q + tb1)).take
        (preLen containerEl q + tb2 - (preLen containerEl q + tb1)) =
      ((textContent el).drop tb1).take (tb2 - tb1) := by
    rw [hdc, ← hplen]
    exact slice_within_decomp pre (textContent el) post tb1 tb2 h12 htl
  constructor
  · unfold selectionToMarkdownRange
    rw [hsel]
    dsimp only
    rw [hsp, hep] at hvalid
    rw [hsp, hep, ho1, ho2] at hnc
    rw [hsp, hep, ho1, ho2]
    rw [if_neg hnc, if_neg (fun hn => hn hvalid), hge1, hge2, hsel_text, htrim,
      if_neg hne, hf1, hf2]
  · rw [jsSlice_sub_slice source es ee tb1 tb2 hes h12 hcl heL, ← hmatch]

/-- A rendered tree for the plain source "hi there": the paragraph covers
`[0,8)` and its rendered text equals the source. -/
def plainTree : DomNode :=
  DomNode.elem none [DomNode.elem (some (0, 8)) [DomNode.text "hi there".toList]]

/-- The attributed paragraph inside `plainTree`. -/
def plainEl : DomNode :=
  DomNode.elem (some (0, 8)) [DomNode.text "hi there".toList]

/-- A selection of "there" inside `plainTree` (text node offsets 3 to 8). -/
def plainSel : DomSelection :=
  { ranges := [{ startPath := [0, 0], startOffset := 3, endPath := [0, 0], endOffset := 8 }] }

/-- C5 witness: on the plain source "hi there" the amended round-trip
theorem applies, and the resolved range `[3,8)` slices back to the stored
anchor text "there". -/
theorem selection_roundtrip_of_plain_witness :
    selectionToMarkdownRange plainSel plainTree =
      some { startOffset := 3, endOffset := 8, selectedText := "there".toList } ∧
    jsSlice "hi there".toList 3 8 = "there".toList := by
  have h := selection_roundtrip_of_plain "hi there".toList plainTree plainEl plainSel
    { startPath := [0, 0], startOffset := 3, endPath := [0, 0], endOffset := 8 } []
    [0] [0] [0] 3 8 3 8 0 8 rfl rfl rfl rfl rfl rfl rfl rfl rfl rfl
    (by decide) (by decide) (by decide) (by decide) (by decide)
    (by rfl) (by decide) (by decide) (by rfl) (by decide)
  refine ⟨?_, by decide⟩
  rw [h.1]
  decide

/-- `Node.normalize` on a child list: remove empty text nodes and merge
adjacent text siblings. -/
def mergeTexts : List DomNode → List DomNode
  | [] => []
  | DomNode.text s :: rest =>
    if s.isEmpty then mergeTexts rest
    else
      match mergeTexts rest with
      | DomNode.text s2 :: rest' => DomNode.text (s ++ s2) :: rest'
      | r => DomNode.text s :: r
  | n :: rest => n :: mergeTexts rest

mutual
/-- `Node.normalize`: deep normalization of the whole subtree. -/
def domNormalize : DomNode → DomNode
  | DomNode.text s => DomNode.text s
  | DomNode.pointSpan i a => DomNode.pointSpan i a
  | DomNode.elem p cs => DomNode.elem p (mergeTexts (domNormalizeList cs))
  | DomNode.mark i a cs => DomNode.mark i a (mergeTexts (domNormalizeList cs))

def domNormalizeList : List DomNode → List DomNode
  | [] => []
  | n :: rest => domNormalize n :: domNormalizeList rest
end

mutual
/-- Unwrap the first `<mark>` in document order: move its children into its
place and normalize its parent's subtree, as the cleanup loop of
`applyHighlights` does for each mark.  Returns the new tree and whether a
mark was found. -/
def unwrapFM : DomNode → DomNode × Bool
  | DomNode.text s => (DomNode.text s, false)
  | DomNode.pointSpan i a => (DomNode.pointSpan i a, false)
  | DomNode.elem p cs =>
    let r := unwrapFMList cs
    (if r.2.2 then domNormalize (DomNode.elem p r.1) else DomNode.elem p r.1, r.2.1)
  | DomNode.mark i a cs =>
    let r := unwrapFMList cs
    (if r.2.2 then domNormalize (DomNode.mark i a r.1) else DomNode.mark i a r.1, r.2.1)

/-- Returns (new children, found anywhere, found directly at this level). -/
def unwrapFMList : List DomNode → List DomNode × Bool × Bool
  | [] => ([], false, false)
  | DomNode.mark _ _ kids :: rest => (kids ++ rest, true, true)
  | n :: rest =>
    let r := unwrapFM n
    if r.2 then (r.1 :: rest, true, false)
    else
      let r2 := unwrapFMList rest
      (r.1 :: r2.1, r2.2.1, r2.2.2)
end

mutual
def countMarks : DomNode → Nat
  | DomNode.elem _ cs => countMarksList cs
  | DomNode.mark _ _ cs => 1 + countMarksList cs
  | DomNode.text _ => 0
  | DomNode.pointSpan _ _ => 0

def countMarksList : List DomNode → Nat
  | [] => 0
  | n :: rest => countMarks n + countMarksList rest
end

def removeMarksFuel : Nat → DomNode → DomNode
  | 0, t => t
  | Nat.succ f, t =>
    let r := unwrapFM t
    if r.2 then removeMarksFuel f r.1 else r.1

/-- The first cleanup pass of `applyHighlights`: unwrap every
`mark[data-annotation-id]` (normalizing its parent) until none remain.
Each unwrap removes exactly one mark, so `countMarks` steps suffice. -/
def removeMarks (t : DomNode) : DomNode := removeMarksFuel (countMarks t) t

mutual
/-- The second cleanup pass: remove every `span[data-point-annotation-id]`
(no normalization afterwards, exactly as in the source). -/
def removeSpans : DomNode → DomNode
  | DomNode.elem p cs => DomNode.elem p (removeSpansList cs)
  | DomNode.mark i a cs => DomNode.mark i a (removeSpansList cs)
  | DomNode.text s => DomNode.text s
  | DomNode.pointSpan i a => DomNode.pointSpan i a

def removeSpansList : List DomNode → List DomNode
  | [] => []
  | DomNode.pointSpan _ _ :: rest => removeSpansList rest
  | n :: rest => removeSpans n :: removeSpansList rest
end

mutual
/-- Number of elements matching `[data-source-start][data-source-end]`
(the `querySelectorAll` snapshot size). -/
def countPosElems : DomNode → Nat
  | DomNode.elem (some _) cs => 1 + countPosElemsList cs
  | DomNode.elem none cs => countPosElemsList cs
  | DomNode.mark _ _ cs => countPosElemsList cs
  | DomNode.text _ => 0
  | DomNode.pointSpan _ _ => 0

def countPosElemsList : List DomNode → Nat
  | [] => 0
  | n :: rest => countPosElems n + countPosElemsList rest
end

mutual
/-- The text-node walk of `wrapAnnotationRange` (lines 198-265 of
`DocumentView.tsx`) within one attributed element: walk text descendants
with a running character count; at the first text node whose overlap with
`[aS, aE)` is non-empty and whose direct parent is not a `<mark>`, wrap
that overlap in a fresh mark (splitting the text node) and stop (the
source's `break`).  `surroundContents` never throws here because the range
lies inside a single text node. -/
def tryWrapNode (annId : Nat) (isActive : Bool) (aS aE : Int) (parentIsMark : Bool)
    (n : DomNode) (c : Int) : List DomNode × Int × Bool :=
  match n with
  | DomNode.text s =>
    let len : Int := s.length
    if c < aE ∧ c + len > aS then
      let wS := max 0 (aS - c)
      let wE := min len (aE - c)
      if wS < wE ∧ ¬parentIsMark then
        ((if 0 < wS then [DomNode.text (s.take wS.toNat)] else []) ++
          DomNode.mark annId isActive
            [DomNode.text ((s.drop wS.toNat).take (wE - wS).toNat)] ::
          (if wE < len then [DomNode.text (s.drop wE.toNat)] else []),
         c + len, true)
      else ([DomNode.text s], c + len, false)
    else ([DomNode.text s], c + len, false)
  | DomNode.mark i a kids =>
    let r := tryWrapList annId isActive aS aE true kids c
    ([DomNode.mark i a r.1], r.2.1, r.2.2)
  | DomNode.elem pos kids =>
    let r := tryWrapList annId isActive aS aE false kids c
    ([DomNode.elem pos r.1], r.2.1, r.2.2)
  | DomNode.pointSpan i a => ([DomNode.pointSpan i a], c, false)

def tryWrapList (annId : Nat) (isActive : Bool) (aS aE : Int) (parentIsMark : Bool)
    (cs : List DomNode) (c : Int) : List DomNode × Int × Bool :=
  match cs with
  | [] => ([], c, false)
  | n :: rest =>
    let r := tryWrapNode annId isActive aS aE parentIsMark n c
    if r.2.2 then (r.1 ++ rest, r.2.1, true)
    else
      let r2 := tryWrapList annId isActive aS aE parentIsMark rest r.2.1
      (r.1 ++ r2.1, r2.2.1, r2.2.2)
end

/-- Wrap attempt inside one attributed element, with the annotation range
converted to element-relative offsets exactly as in the source. -/
def tryWrapElem (ann : Annotation ) (isActive : Bool) (elS elE : Int)
    (cs : List DomNode) : List DomNode :=
  (tryWrapList ann.id isActive (max 0 (ann.markdownStartOffset - elS))
    (min (elE - elS) (ann.markdownEndOffset - elS)) false cs 0).1

mutual
/-- Process the `k`-th attributed element (document order) of the
`querySelectorAll` snapshot for a range annotation; `c` is the running
pre-order index of attributed elements.  The wrap only splits text nodes
and inserts marks, so the element skeleton — and hence the index mapping —
is unchanged across iterations. -/
def wrapAtNode (ann : Annotation ) (isActive : Bool) (k : Nat) (t : DomNode)
    (c : Nat) : DomNode × Nat :=
  match t with
  | DomNode.elem (some (elS, elE)) cs =>
    if c = k then
      (if elS ≥ ann.markdownEndOffset ∨ elE ≤ ann.markdownStartOffset then
        DomNode.elem (some (elS, elE)) cs
       else DomNode.elem (some (elS, elE)) (tryWrapElem ann isActive elS elE cs),
       c + 1 + countPosElemsList cs)
    else
      let r := wrapAtList ann isActive k cs (c + 1)
      (DomNode.elem (some (elS, elE)) r.1, r.2)
  | DomNode.elem none cs =>
    let r := wrapAtList ann isActive k cs c
    (DomNode.elem none r.1, r.2)
  | DomNode.mark i a cs =>
    let r := wrapAtList ann isActive k cs c
    (DomNode.mark i a r.1, r.2)
  | DomNode.text s => (DomNode.text s, c)
  | DomNode.pointSpan i a => (DomNode.pointSpan i a, c)

def wrapAtList (ann : Annotation ) (isActive : Bool) (k : Nat) (cs : List DomNode)
    (c : Nat) : List DomNode × Nat :=
  match cs with
  | [] => ([], c)
  | n :: rest =>
    let r := wrapAtNode ann isActive k n c
    let r2 := wrapAtList ann isActive k rest r.2
    (r.1 :: r2.1, r2.2)
end

/-- Embedding of `wrapAnnotationRange`: iterate over the snapshot of
attributed elements in document order, attempting one wrap per element,
with earlier mutations visible to later elements. -/
def wrapAnnotationRange (container : DomNode) (ann : Annotation )
    (isActive : Bool) : DomNode :=
  (List.range (countPosElems container)).foldl
    (fun t k => (wrapAtNode ann isActive k t 0).1) container

mutual
/-- The text-node walk of `insertPointMarker` (lines 270-327): find the
first text node with `charCount + len >= targetOffset`, split it at the
target offset when that is strictly inside, and insert the point span right
after it. -/
def pointSplitNode (annId : Nat) (isActive : Bool) (targ : Int) (n : DomNode)
    (c : Int) : List DomNode × Int × Bool :=
  match n with
  | DomNode.text s =>
    let len : Int := s.length
    if c + len ≥ targ then
      let o := targ - c
      if 0 < o ∧ o < len then
        ([DomNode.text (s.take o.toNat), DomNode.pointSpan annId isActive,
          DomNode.text (s.drop o.toNat)], c + len, true)
      else
        ([DomNode.text s, DomNode.pointSpan annId isActive], c + len, true)
    else ([DomNode.text s], c + len, false)
  | DomNode.mark i a kids =>
    let r := pointSplitList annId isActive targ kids c
    ([DomNode.mark i a r.1], r.2.1, r.2.2)
  | DomNode.elem pos kids =>
    let r := pointSplitList annId isActive targ kids c
    ([DomNode.elem pos r.1], r.2.1, r.2.2)
  | DomNode.pointSpan i a => ([DomNode.pointSpan i a], c, false)

def pointSplitList (annId : Nat) (isActive : Bool) (targ : Int)
    (cs : List DomNode) (c : Int) : List DomNode × Int × Bool :=
  match cs with
  | [] => ([], c, false)
  | n :: rest =>
    let r := pointSplitNode annId isActive targ n c
    if r.2.2 then (r.1 ++ rest, r.2.1, true)
    else
      let r2 := pointSplitList annId isActive targ rest r.2.1
      (r.1 ++ r2.1, r2.2.1, r2.2.2)
end

mutual
/-- Attempt the point-marker insertion at the `k`-th attributed element;
the element is skipped when the offset lies outside its span, and the
function reports whether the span was inserted (the source `return`s on
success). -/
def insertPointAtNode (annId : Nat) (isActive : Bool) (off : Int) (k : Nat)
    (t : DomNode) (c : Nat) : DomNode × Nat × Bool :=
  match t with
  | DomNode.elem (some (elS, elE)) cs =>
    if c = k then
      if off < elS ∨ off > elE then
        (DomNode.elem (some (elS, elE)) cs, c + 1 + countPosElemsList cs, false)
      else
        let r := pointSplitList annId isActive (off - elS) cs 0
        (DomNode.elem (some (elS, elE)) r.1, c + 1 + countPosElemsList cs, r.2.2)
    else
      let r := insertPointAtList annId isActive off k cs (c + 1)
      (DomNode.elem (some (elS, elE)) r.1, r.2.1, r.2.2)
  | DomNode.elem none cs =>
    let r := insertPointAtList annId isActive off k cs c
    (DomNode.elem none r.1, r.2.1, r.2.2)
  | DomNode.mark i a cs =>
    let r := insertPointAtList annId isActive off k cs c
    (DomNode.mark i a r.1, r.2.1, r.2.2)
  | DomNode.text s => (DomNode.text s, c, false)
  | DomNode.pointSpan i a => (DomNode.pointSpan i a, c, false)

def insertPointAtList (annId : Nat) (isActive : Bool) (off : Int) (k : Nat)
    (cs : List DomNode) (c : Nat) : List DomNode × Nat × Bool :=
  match cs with
  | [] => ([], c, false)
  | n :: rest =>
    let r := insertPointAtNode annId isActive off k n c
    let r2 := insertPointAtList annId isActive off k rest r.2.1
    (r.1 :: r2.1, r2.2.1, r.2.2 || r2.2.2)
end

/-- Embedding of `insertPointMarker`: try the attributed elements in
document order and stop at the first successful insertion. -/
def insertPointMarker (container : DomNode) (ann : Annotation )
    (isActive : Bool) : DomNode :=
  ((List.range (countPosElems container)).foldl
    (fun acc k =>
      if acc.2 then acc
      else
        let r := insertPointAtNode ann.id isActive ann.markdownStartOffset k acc.1 0
        (r.1, r.2.2))
    (container, false)).1

/-- Faithful embedding of `applyHighlights` from
`src/components/DocumentView.tsx` (lines 158-192): remove all existing
marks (normalizing their parents), then remove all point spans, then
process the annotations in descending start order, wrapping ranges and
inserting point markers.  Click handlers are not modelled; the `active`
flag records `activeId === annotation.id`. -/
def applyHighlights (container : DomNode) (anns : List Annotation )
    (activeId : Option Nat) : DomNode :=
  (sortDescByStart anns).foldl
    (fun t ann =>
      if ann.kind = AnnotKind.point then
        insertPointMarker t ann (decide (activeId = some ann.id))
      else
        wrapAnnotationRange t ann (decide (activeId = some ann.id)))
    (removeSpans (removeMarks container))

mutual
/-- The observable decoration set: the `(annotation id, active flag)` of
every mark and point span, in document order. -/
def markers : DomNode → List (Nat × Bool)
  | DomNode.text _ => []
  | DomNode.pointSpan i a => [(i, a)]
  | DomNode.mark i a cs => (i, a) :: markersList cs
  | DomNode.elem _ cs => markersList cs

def markersList : List DomNode → List (Nat × Bool)
  | [] => []
  | n :: rest => markers n ++ markersList rest
end

/-- A container whose paragraph (source span `[0,6)`) holds three adjacent
sibling text nodes "ab", "cd", "ef" — a legal DOM tree. -/
def adjacentTextTree : DomNode :=
  DomNode.elem none
    [DomNode.elem (some (0, 6))
      [DomNode.text "ab".toList, DomNode.text "cd".toList, DomNode.text "ef".toList]]

/-- First of two range annotations covering source offsets `[2,5)`. -/
def overlapAnnA : Annotation :=
  { id := 1, kind := AnnotKind.range, selectedText := [], note := [],
    markdownStartOffset := 2, markdownEndOffset := 5, createdAt := 0 }

/-- Second range annotation over the same source offsets `[2,5)` (two notes
attached to the same selection). -/
def overlapAnnB : Annotation :=
  { id := 2, kind := AnnotKind.range, selectedText := [], note := [],
    markdownStartOffset := 2, markdownEndOffset := 5, createdAt := 1 }

/-- C7: `applyHighlights` is not idempotent.  On `adjacentTextTree` with two
annotations over `[2,5)`, the first call produces markers for both
annotations (annotation 1 wraps "cd", bounded by the text-node split, and
annotation 2 wraps "e").  The cleanup of the second call unwraps the marks
and `normalize` merges the adjacent text nodes, so the re-applied wrap of
annotation 1 covers the full "cde"; annotation 2 then finds its whole range
inside annotation 1's mark and, since text inside a `<mark>` is skipped, it
receives no marker at all: the marker sets of one and two applications
differ, although both calls got identical `(tree, annotations, activeId)`
arguments. -/
theorem applyHighlights_not_idempotent :
    markers (applyHighlights adjacentTextTree [overlapAnnA, overlapAnnB] none) =
      [(1, false), (2, false)] ∧
    markers (applyHighlights
        (applyHighlights adjacentTextTree [overlapAnnA, overlapAnnB] none)
        [overlapAnnA, overlapAnnB] none) =
      [(1, false)] := by
  exact ⟨by rfl, by rfl⟩
